import Mathlib

/-!
Verification development for `sitemap_gen.py` (a single-site sitemap crawler).

The development shallowly embeds the crawler's core: the URL helpers it uses
from `urllib.parse` (scheme/netloc/path splitting, relative reference
resolution, fragment stripping), the link-admission logic of
`MyHTMLParser.handle_starttag`, and the frontier loop of `parsePages`.

Machine-level collaborators are abstracted at the boundaries the program
itself uses:
* the HTTP transport is a function `String → FetchResult` (the observable
  outcome of `HTMLLoad.get`: failure, redirect with a resolved target, or
  success with a timestamp and content);
* the HTML tokenizer is represented by giving a successfully decoded page
  directly as its list of start tags `(tagName, attributes)`, exactly the
  events `HTMLParser.feed` delivers to `handle_starttag`;
* the robots policy (`reppy`) is an abstract `Option (String → Bool)`,
  mirroring `robotParser is None / robotParser.allowed(url, "sitemap_gen")`.

Python dictionaries (insertion ordered) are embedded as association lists:
assignment updates in place when the key is present and appends otherwise,
`del` removes the key's entry, and iteration is list order.
-/

deriving instance DecidableEq for Except

namespace SitemapGen

/-! ## Port of the `urllib.parse` helpers used by the program

`sitemap_gen.py` calls `urllib.parse.urlsplit`, `urlparse`, `urljoin` and
`urldefrag`.  These are ported below from CPython's `urllib/parse.py`
(the 3.8-era code the program ran against), operating on `List Char`.
The IPv6 bracket `ValueError` of `urlsplit` is not modelled; the port is
faithful for URLs without square brackets, which covers every URL formed
in this development.
-/

/-- Characters allowed in a URL scheme (`scheme_chars` in CPython):
ASCII letters, digits, and `+`, `-`, `.`. -/
def schemeChar (c : Char) : Bool :=
  c.isAlpha || c.isDigit || c = '+' || c = '-' || c = '.'

/-- Python `str.split(sep)` for a single-character separator: no collapsing
of adjacent separators, and the empty string splits to `[""]`. -/
def splitOnChar (c : Char) : List Char → List (List Char)
  | [] => [[]]
  | x :: xs =>
    let r := splitOnChar c xs
    if x = c then [] :: r
    else
      match r with
      | [] => [[x]]
      | y :: ys => (x :: y) :: ys

/-- First index of a character satisfying `p`, at or after position `start`
(Python `str.find(c, start)` generalised to a predicate). -/
def findIdxFrom (p : Char → Bool) (start : Nat) (l : List Char) : Option Nat :=
  match (l.drop start).findIdx? p with
  | some i => some (start + i)
  | none => none

/-- Index of the last occurrence of `c` (Python `str.rfind(c)`). -/
def lastIdxOf (c : Char) (l : List Char) : Option Nat :=
  match (l.reverse).findIdx? (· = c) with
  | some i => some (l.length - 1 - i)
  | none => none

/-- Result of `urlsplit`: `(scheme, netloc, path, query, fragment)`. -/
structure SplitParts where
  scheme : List Char
  netloc : List Char
  path : List Char
  query : List Char
  fragment : List Char
deriving DecidableEq, Repr

/-- CPython `urllib.parse._splitnetloc(url, 2)`: everything after the `//`
up to the first `/`, `?` or `#` is the netloc. -/
def splitnetloc (l : List Char) : List Char × List Char :=
  let d := (l.findIdx? (fun c => c = '/' || c = '?' || c = '#')).getD l.length
  (l.take d, l.drop d)

/-- CPython `urllib.parse.urlsplit(url, scheme=default)`. -/
def urlsplitD (url0 : List Char) (defaultScheme : List Char) : SplitParts :=
  let (scheme, url) :=
    match url0.findIdx? (· = ':') with
    | some i =>
      if 0 < i ∧ (url0.take i).all schemeChar then
        ((url0.take i).map Char.toLower, url0.drop (i + 1))
      else (defaultScheme, url0)
    | none => (defaultScheme, url0)
  let (netloc, url) :=
    if url.take 2 = ['/', '/'] then splitnetloc (url.drop 2) else ([], url)
  let (url, fragment) :=
    match url.findIdx? (· = '#') with
    | some i => (url.take i, url.drop (i + 1))
    | none => (url, [])
  let (url, query) :=
    match url.findIdx? (· = '?') with
    | some i => (url.take i, url.drop (i + 1))
    | none => (url, [])
  ⟨scheme, netloc, url, query, fragment⟩

/-- CPython `urllib.parse._splitparams` (only reached when `;` occurs in
the path). -/
def splitparams (l : List Char) : List Char × List Char :=
  match lastIdxOf '/' l with
  | some j =>
    match findIdxFrom (· = ';') j l with
    | some i => (l.take i, l.drop (i + 1))
    | none => (l, [])
  | none =>
    match findIdxFrom (· = ';') 0 l with
    | some i => (l.take i, l.drop (i + 1))
    | none => (l, [])

/-- Result of `urlparse`: `(scheme, netloc, path, params, query, fragment)`. -/
structure UrlParts where
  scheme : List Char
  netloc : List Char
  path : List Char
  params : List Char
  query : List Char
  fragment : List Char
deriving DecidableEq, Repr

/-- CPython `urllib.parse.urlparse(url, scheme=default)`. -/
def urlparseD (url : List Char) (defaultScheme : List Char) : UrlParts :=
  let s := urlsplitD url defaultScheme
  if s.path.contains ';' then
    let (p, params) := splitparams s.path
    ⟨s.scheme, s.netloc, p, params, s.query, s.fragment⟩
  else ⟨s.scheme, s.netloc, s.path, [], s.query, s.fragment⟩

/-- CPython `urllib.parse.urlunsplit`. -/
def urlunsplit (scheme netloc path query fragment : List Char) : List Char :=
  let url := path
  let url :=
    if netloc ≠ [] ∨ (url ≠ [] ∧ url.take 2 = ['/', '/']) then
      let url := if url ≠ [] ∧ url.take 1 ≠ ['/'] then '/' :: url else url
      '/' :: '/' :: (netloc ++ url)
    else url
  let url := if scheme ≠ [] then scheme ++ ':' :: url else url
  let url := if query ≠ [] then url ++ '?' :: query else url
  if fragment ≠ [] then url ++ '#' :: fragment else url

/-- CPython `urllib.parse.urlunparse`. -/
def urlunparse (scheme netloc path params query fragment : List Char) : List Char :=
  let url := if params ≠ [] then path ++ ';' :: params else path
  urlunsplit scheme netloc url query fragment

/-- CPython `uses_relative`. -/
def usesRelative : List (List Char) :=
  ["", "ftp", "http", "gopher", "nntp", "imap", "wais", "file", "https",
   "shttp", "mms", "prospero", "rtsp", "rtspu", "sftp", "svn", "svn+ssh",
   "ws", "wss"].map String.data

/-- CPython `uses_netloc`. -/
def usesNetloc : List (List Char) :=
  ["", "ftp", "http", "gopher", "nntp", "telnet", "imap", "wais", "file",
   "mms", "https", "shttp", "snews", "prospero", "rtsp", "rtspu", "rsync",
   "svn", "svn+ssh", "sftp", "nfs", "git", "git+ssh", "ws", "wss"].map
   String.data

/-- The `..`/`.` resolution loop of CPython `urljoin` (`resolved_path`);
popping from an empty accumulator is a no-op (the `IndexError` is passed). -/
def resolveSegs : List (List Char) → List (List Char) → List (List Char)
  | [], acc => acc
  | s :: rest, acc =>
    if s = ['.', '.'] then resolveSegs rest acc.dropLast
    else if s = ['.'] then resolveSegs rest acc
    else resolveSegs rest (acc ++ [s])

/-- CPython `segments[1:-1] = filter(None, segments[1:-1])`: drop empty
segments strictly between the first and the last. -/
def filterMiddle (l : List (List Char)) : List (List Char) :=
  match l with
  | [] => []
  | [x] => [x]
  | x :: rest => x :: (rest.dropLast.filter (fun s => s ≠ [])) ++ [rest.getLast?.getD []]

/-- CPython `urllib.parse.urljoin(base, url)`. -/
def urljoin (base url : String) : String :=
  if base = "" then url
  else if url = "" then base
  else
    let b := urlparseD base.data []
    let r := urlparseD url.data b.scheme
    if r.scheme ≠ b.scheme ∨ ¬ usesRelative.contains r.scheme then url
    else if usesNetloc.contains r.scheme ∧ r.netloc ≠ [] then
      String.mk (urlunparse r.scheme r.netloc r.path r.params r.query r.fragment)
    else
      let netloc := if usesNetloc.contains r.scheme then b.netloc else r.netloc
      if r.path = [] ∧ r.params = [] then
        let query := if r.query = [] then b.query else r.query
        String.mk (urlunparse r.scheme netloc b.path b.params query r.fragment)
      else
        let baseParts := splitOnChar '/' b.path
        let baseParts :=
          if baseParts.getLast?.getD [] ≠ [] then baseParts.dropLast else baseParts
        let segments :=
          if r.path.take 1 = ['/'] then splitOnChar '/' r.path
          else filterMiddle (baseParts ++ splitOnChar '/' r.path)
        let resolved := resolveSegs segments []
        let resolved :=
          if segments.getLast?.getD [] = ['.'] ∨ segments.getLast?.getD [] = ['.', '.']
          then resolved ++ [[]] else resolved
        String.mk
          (urlunparse r.scheme netloc (List.intercalate ['/'] resolved)
            r.params r.query r.fragment)

/-- CPython `urllib.parse.urldefrag(url)`: the URL without its fragment,
and the fragment. -/
def urldefrag (url : String) : String × String :=
  if url.data.contains '#' then
    let p := urlparseD url.data []
    (String.mk (urlunparse p.scheme p.netloc p.path p.params p.query []),
     String.mk p.fragment)
  else (url, "")

/-- Port of `urllib.parse.urlsplit(u)[1]`: the network location (host[:port]) of a
URL, as the program extracts it (`sitemap_gen.py` lines 203, 242, 269, 284). -/
def urlsplitNetloc (url : String) : String :=
  String.mk (urlsplitD url.data []).netloc

/-- Function `joinUrls` (`sitemap_gen.py` lines 174-177): strip the fragment of
`newUrl`, then resolve against `baseUrl`. -/
def joinUrls (baseUrl newUrl : String) : String :=
  urljoin baseUrl (urldefrag newUrl).1

/-! ## Frontier data model

The Python frontier `pageMap` is a dict whose values are either the shared
sentinel `EMPTY` (unvisited) or a `datetime` (visited).  Following the
program's actual use (only those two shapes of value are ever stored, and
`is EMPTY` / `isinstance(..., datetime)` distinguish them), an entry's value
is a two-state tagged type; dates are abstracted to `Nat`. -/

/-- Value of a frontier entry: the `EMPTY` sentinel, or a visited date. -/
inductive PStatus where
  | empty
  | visited (date : Nat)
deriving DecidableEq, Repr

/-- The frontier: an insertion-ordered association list embedding the
Python dict `pageMap`. -/
abbrev PageMap := List (String × PStatus)

/-- Python `url in pageMap` (dict key membership). -/
def pmContains (m : PageMap) (k : String) : Bool :=
  m.any (fun p => p.1 == k)

/-- Python `pageMap[k] = v` (dict assignment): update in place when the key
is present, else append. -/
def pmAssign (m : PageMap) (k : String) (v : PStatus) : PageMap :=
  if pmContains m k = true then m.map (fun p => if p.1 == k then (k, v) else p)
  else m ++ [(k, v)]

/-- Python `del pageMap[k]`. -/
def pmDelete (m : PageMap) (k : String) : PageMap :=
  m.filter (fun p => !(p.1 == k))

/-- Function `getUrlToProcess` (`sitemap_gen.py` lines 257-261): the first key, in
insertion order, whose value is the unvisited sentinel. -/
def getUrlToProcess (pageMap : PageMap) : Option String :=
  match pageMap.find? (fun p => p.2 == PStatus.empty) with
  | some p => some p.1
  | none => none

/-! ## The HTML parser (`MyHTMLParser`) -/

/-- One HTML attribute as delivered by `html.parser`: `(name, value)`.
Valueless attributes (value `None` in Python) are outside this model. -/
abbrev Attr := String × String

/-- One start tag event: `(tagName, attributes)`. -/
abbrev Tag := String × List Attr

/-- Python `s.find(sub) != -1`: substring containment. -/
def strContains (s pat : String) : Bool :=
  (List.range (s.data.length + 1)).any (fun i => pat.data.isPrefixOf (s.data.drop i))

/-- Python `path.upper()` etc. -/
def strUpper (s : String) : String := String.mk (s.data.map Char.toUpper)

/-- Method `hasBlockedExtension` (`sitemap_gen.py` lines 209-213): the uppercased
`urlparse` path ends with one of the blocked extensions (`str.endswith` on
a tuple; an empty tuple matches nothing). -/
def hasBlockedExtension (blockExtensions : List String) (url : String) : Bool :=
  let path := (urlparseD url.data []).path.map Char.toUpper
  blockExtensions.any (fun e => e.data.isSuffixOf path)

/-- The per-parser configuration fixed by `MyHTMLParser.__init__`
(lines 198-207): `self.server` is the netloc of the constructor's
`baseUrl`, and `self.redirects` is read-only inside the parser. -/
structure ParserCfg where
  server : String
  maxUrls : Nat
  blockExtensions : List String
  robot : Option (String → Bool)
  redirects : List String

/-- The parser state that `handle_starttag` mutates: `self.baseUrl` and the
shared `pageMap`. -/
structure ParserSt where
  baseUrl : String
  pageMap : PageMap
deriving DecidableEq, Repr

/-- The check `robotParser is None or robotParser.allowed(url, "sitemap_gen")` —
the admission reading of lines 246 and 286-287. -/
def robotAllows (robot : Option (String → Bool)) (url : String) : Bool :=
  match robot with
  | some rp => rp url
  | none => true

/-- The attribute scan of the `A` branch of `handle_starttag`
(lines 226-239): walk the attributes, returning at a `rel` containing
`NOFOLLOW`, overwriting `url` at each `href` not containing `MAILTO:`;
`none` is the early `return` (nofollow found, or `url` still `""`). -/
def scanAttrs (baseUrl : String) (attrs : List Attr) (url : String) : Option String :=
  match attrs with
  | [] => if url = "" then none else some url
  | a :: rest =>
    if strUpper a.1 = "REL" ∧ strContains (strUpper a.2) "NOFOLLOW" then none
    else if strUpper a.1 = "HREF" ∧ ¬ strContains (strUpper a.2) "MAILTO:" then
      scanAttrs baseUrl rest (joinUrls baseUrl a.2)
    else scanAttrs baseUrl rest url

/-- The `BASE` block of `handle_starttag` (lines 219-222): rebase
`self.baseUrl` when the tag's first attribute is an `href`.
`Except.error ()` is the uncaught `IndexError` from evaluating
`attrs[0][0]` on a `base` tag with no attributes (line 220). -/
def handleBase (st : ParserSt) (tag : String) (attrs : List Attr) :
    Except Unit ParserSt :=
  if strUpper tag = "BASE" then
    match attrs with
    | [] => Except.error ()
    | a :: _ =>
      Except.ok (if strUpper a.1 = "HREF" then
        { st with baseUrl := joinUrls st.baseUrl a.2 } else st)
  else Except.ok st

/-- The `A` block of `handle_starttag` (lines 224-252): scan the
attributes for a candidate, then run the admission checks (same netloc,
not blocked, not redirected, robots-allowed, not already a key) and append
the candidate as unvisited. -/
def handleA (cfg : ParserCfg) (st : ParserSt) (tag : String)
    (attrs : List Attr) : ParserSt :=
  if strUpper tag = "A" then
    match scanAttrs st.baseUrl attrs "" with
    | none => st
    | some url =>
      if urlsplitNetloc url ≠ cfg.server then st
      else if hasBlockedExtension cfg.blockExtensions url
              ∨ 0 < cfg.redirects.count url then st
      else if cfg.robot.isSome ∧ ¬ robotAllows cfg.robot url then st
      else if pmContains st.pageMap url then st
      else { st with pageMap := st.pageMap ++ [(url, PStatus.empty)] }
  else st

/-- Method `MyHTMLParser.handle_starttag` (lines 215-254): the budget guard
(line 216), then the `BASE` block, then the `A` block, executed
sequentially as in the source (a tag name is never both). -/
def handle_starttag (cfg : ParserCfg) (st : ParserSt) (tag : String)
    (attrs : List Attr) : Except Unit ParserSt :=
  if st.pageMap.length ≥ cfg.maxUrls then Except.ok st
  else
    match handleBase st tag attrs with
    | Except.error e => Except.error e
    | Except.ok st1 => Except.ok (handleA cfg st1 tag attrs)

/-- Feeding a decoded page to the parser: `parser.feed` drives
`handle_starttag` over the start tags in document order; an error
(`IndexError`) aborts the feed and propagates. -/
def feedTags (cfg : ParserCfg) (st : ParserSt) : List Tag → Except Unit ParserSt
  | [] => Except.ok st
  | t :: ts =>
    match handle_starttag cfg st t.1 t.2 with
    | Except.error e => Except.error e
    | Except.ok st' => feedTags cfg st' ts

/-! ## The crawl loop (`parsePages`) -/

/-- Content of a successfully fetched page: either its bytes fail UTF-8
decoding (`page.decode` raises the `UnicodeError` caught at line 295), or
they decode and tokenize to a list of start tags. -/
inductive PageContent where
  | decodeError
  | tags (tags : List Tag)
deriving DecidableEq

/-- The observable outcome of `loader.get(url)` for the crawl loop's three
branches (lines 276-296): `page is None`; `loader.redirect` set (its value
is the resolved target of `_handle_redirect`); success with `loader.date`
and the page content. -/
inductive FetchResult where
  | failure
  | redirect (target : String)
  | success (date : Nat) (content : PageContent)
deriving DecidableEq

/-- The mutable state of the `parsePages` loop. -/
structure CrawlState where
  pageMap : PageMap
  redirects : List String
deriving DecidableEq, Repr

/-- Outcome of one iteration of the `while True` loop: loop exit
(`getUrlToProcess` returned `None`), a successor state, or an uncaught
exception (the `IndexError` of `handle_starttag`) aborting `parsePages`. -/
inductive StepResult where
  | done (pm : PageMap)
  | next (s : CrawlState)
  | crash
deriving DecidableEq

/-- One iteration of the `while True` body of `parsePages`
(lines 271-297). -/
def crawlStep (fetch : String → FetchResult) (server : String) (maxUrls : Nat)
    (blockExtensions : List String) (robot : Option (String → Bool))
    (s : CrawlState) : StepResult :=
  match getUrlToProcess s.pageMap with
  | none => .done s.pageMap
  | some url =>
    match fetch url with
    | .failure => .next ⟨pmDelete s.pageMap url, s.redirects⟩
    | .redirect target =>
      let newUrl := (urldefrag target).1
      let pm := pmDelete s.pageMap url
      let rds := s.redirects ++ [url]
      if urlsplitNetloc newUrl = server ∧ ¬ pmContains pm newUrl
          ∧ newUrl ∉ rds ∧ robotAllows robot newUrl then
        .next ⟨pm ++ [(newUrl, PStatus.empty)], rds⟩
      else .next ⟨pm, rds⟩
    | .success date content =>
      let pm := pmAssign s.pageMap url (.visited date)
      match content with
      | .decodeError => .next ⟨pm, s.redirects⟩
      | .tags tags =>
        match feedTags ⟨urlsplitNetloc url, maxUrls, blockExtensions, robot,
            s.redirects⟩ ⟨url, pm⟩ tags with
        | .error _ => .crash
        | .ok pst => .next ⟨pst.pageMap, s.redirects⟩

/-- The `while True` loop with explicit fuel: `none` means the fuel ran
out, `some (.ok pm)` is normal return of the final `pageMap`, and
`some (.error ())` is the loop aborting on the uncaught exception. -/
def crawlLoop (fetch : String → FetchResult) (server : String) (maxUrls : Nat)
    (blockExtensions : List String) (robot : Option (String → Bool)) :
    Nat → CrawlState → Option (Except Unit PageMap)
  | 0, _ => none
  | n + 1, s =>
    match crawlStep fetch server maxUrls blockExtensions robot s with
    | .done pm => some (.ok pm)
    | .crash => some (.error ())
    | .next s' => crawlLoop fetch server maxUrls blockExtensions robot n s'

/-- The state after `n` iterations; a finished or crashed loop freezes its
state. -/
def crawlIter (fetch : String → FetchResult) (server : String) (maxUrls : Nat)
    (blockExtensions : List String) (robot : Option (String → Bool)) :
    Nat → CrawlState → CrawlState
  | 0, s => s
  | n + 1, s =>
    match crawlStep fetch server maxUrls blockExtensions robot s with
    | .next s' => crawlIter fetch server maxUrls blockExtensions robot n s'
    | _ => s

/-- The initial state of `parsePages` (lines 264-266):
`pageMap = {startUrl: EMPTY}`, `redirects = []`. -/
def initState (startUrl : String) : CrawlState :=
  ⟨[(startUrl, PStatus.empty)], []⟩

/-- Function `parsePages(loader, startUrl, maxUrls, blockExtensions)` run with the
given fuel; `server` is `urlsplit(startUrl)[1]` (line 269) and `robot` is
the result of `getRobotParser`. -/
def parsePagesRun (fetch : String → FetchResult)
    (robot : Option (String → Bool)) (maxUrls : Nat)
    (blockExtensions : List String) (startUrl : String) (fuel : Nat) :
    Option (Except Unit PageMap) :=
  crawlLoop fetch (urlsplitNetloc startUrl) maxUrls blockExtensions robot
    fuel (initState startUrl)

/-- The `parsePages` loop state after `n` iterations. -/
def parsePagesIter (fetch : String → FetchResult)
    (robot : Option (String → Bool)) (maxUrls : Nat)
    (blockExtensions : List String) (startUrl : String) (n : Nat) : CrawlState :=
  crawlIter fetch (urlsplitNetloc startUrl) maxUrls blockExtensions robot
    n (initState startUrl)

/-! ## The `--max-urls` validation in `main` -/

/-- The rejection guard for the max-urls option in `main` (lines 356-360):
the parsed value is rejected (error message and exit status 1) exactly
when `maxUrls < 0 or maxUrls > 50000`. -/
def maxUrlsRejected (maxUrls : Int) : Bool :=
  decide (maxUrls < 0 ∨ maxUrls > 50000)

/-! ## Derived definitions used by the verification -/

/-- Predicate for the hrefs the attribute scan accepts: attribute name
`href` (case-insensitive) with a value not containing `mailto:` anywhere
(case-insensitive); used to state what `scanAttrs` computes. -/
def eligibleHref (a : Attr) : Bool :=
  decide (strUpper a.1 = "HREF" ∧ ¬ strContains (strUpper a.2) "MAILTO:" = true)

/-- The structural invariant of the `parsePages` loop state: the frontier
is a genuine dict (no duplicate keys), the redirect list never shares a
URL with the frontier and has no duplicates, every URL in frontier or
redirect list is on the crawl's server, every visited entry came from a
successful fetch, and every redirect entry came from a redirecting
fetch. -/
structure CrawlInv (fetch : String → FetchResult) (server : String)
    (s : CrawlState) : Prop where
  nodup : (s.pageMap.map Prod.fst).Nodup
  disj : ∀ u ∈ s.redirects, pmContains s.pageMap u = false
  rnodup : s.redirects.Nodup
  netloc_keys : ∀ u ∈ s.pageMap.map Prod.fst, urlsplitNetloc u = server
  netloc_reds : ∀ u ∈ s.redirects, urlsplitNetloc u = server
  vis_succ : ∀ p ∈ s.pageMap, p.2 ≠ PStatus.empty →
    ∃ d c, fetch p.1 = FetchResult.success d c
  red_red : ∀ u ∈ s.redirects, ∃ t, fetch u = FetchResult.redirect t

/-- Number of start tags a page content contributes. -/
def contentTags : PageContent → Nat
  | .decodeError => 0
  | .tags l => l.length

/-- Number of start tags a fetch outcome can feed to the parser. -/
def resultTags : FetchResult → Nat
  | .success _ c => contentTags c
  | _ => 0

/-- The fetch function induced by a finite universe of pages: the outcome
recorded for the URL, or failure when the URL is unknown. -/
def fetchOf (univ : List (String × FetchResult)) : String → FetchResult :=
  fun u =>
    match univ.find? (fun q => q.1 == u) with
    | some q => q.2
    | none => FetchResult.failure

/-- Upper bound on the tags of any page in the universe. -/
def maxTags (univ : List (String × FetchResult)) : Nat :=
  univ.foldr (fun p acc => max (resultTags p.2) acc) 0

/-- Number of unvisited entries in the frontier. -/
def unvisitedCount (s : CrawlState) : Nat :=
  (s.pageMap.filter (fun p => p.2 == PStatus.empty)).length

/-- Number of visited entries in the frontier. -/
def visitedCount (s : CrawlState) : Nat :=
  (s.pageMap.filter (fun p => !(p.2 == PStatus.empty))).length

/-- URLs permanently consumed: visited entries plus redirect records. -/
def burned (s : CrawlState) : Nat := visitedCount s + s.redirects.length

/-- Number of distinct URLs in the universe. -/
def univSize (univ : List (String × FetchResult)) : Nat :=
  (univ.map Prod.fst).dedup.length

/-- The loop potential: unburned universe URLs weighted by the largest
possible per-page fan-out, plus the unvisited frontier entries. -/
def phi (univ : List (String × FetchResult)) (s : CrawlState) : Nat :=
  (univSize univ - burned s) * (maxTags univ + 1) + unvisitedCount s


/-! ## Sanity checks of the URL-library port -/

theorem joinUrls_relative :
    joinUrls "http://example.com/a/b" "c.html" = "http://example.com/a/c.html" := by decide

theorem joinUrls_absolute_path_defrag :
    joinUrls "http://example.com/a/b" "/c.html#frag" = "http://example.com/c.html" := by decide

theorem joinUrls_dotdot :
    joinUrls "http://example.com/a/" "../d" = "http://example.com/d" := by decide

theorem joinUrls_cross_site :
    joinUrls "http://example.com/x" "http://other.org/y" = "http://other.org/y" := by decide

theorem urlsplitNetloc_with_port :
    urlsplitNetloc "http://example.com:8080/p?q#f" = "example.com:8080" := by decide

theorem urldefrag_splits :
    urldefrag "http://e.com/p#sec" = ("http://e.com/p", "sec") := by decide

/-! ## Basic frontier lemmas -/

theorem pmContains_iff_mem_keys {m : PageMap} {k : String} :
    pmContains m k = true ↔ k ∈ m.map Prod.fst := by
  simp [pmContains, List.any_eq_true, List.mem_map]

theorem pmContains_false_iff {m : PageMap} {k : String} :
    pmContains m k = false ↔ k ∉ m.map Prod.fst := by
  rw [← pmContains_iff_mem_keys]
  simp

theorem getUrlToProcess_mem {m : PageMap} {url : String}
    (h : getUrlToProcess m = some url) : (url, PStatus.empty) ∈ m := by
  unfold getUrlToProcess at h
  cases hf : m.find? (fun p => p.2 == PStatus.empty) with
  | none => rw [hf] at h; cases h
  | some p =>
    rw [hf] at h
    obtain ⟨u, v⟩ := p
    cases h
    have h1 := List.find?_some hf
    have h2 := List.mem_of_find?_eq_some hf
    have h3 : v = PStatus.empty := by simpa using h1
    rwa [h3] at h2

theorem getUrlToProcess_none {m : PageMap} (h : getUrlToProcess m = none) :
    ∀ p ∈ m, p.2 ≠ PStatus.empty := by
  unfold getUrlToProcess at h
  cases hf : m.find? (fun p => p.2 == PStatus.empty) with
  | some p => rw [hf] at h; cases h
  | none =>
    intro p hp
    have := List.find?_eq_none.mp hf p hp
    simpa using this

theorem mem_pmDelete {m : PageMap} {k : String} {p : String × PStatus} :
    p ∈ pmDelete m k ↔ p ∈ m ∧ ¬ p.1 = k := by
  simp [pmDelete, List.mem_filter]

theorem pmDelete_length_le (m : PageMap) (k : String) :
    (pmDelete m k).length ≤ m.length :=
  List.length_filter_le _ _

theorem pmDelete_keys_sublist (m : PageMap) (k : String) :
    List.Sublist ((pmDelete m k).map Prod.fst) (m.map Prod.fst) :=
  List.Sublist.map Prod.fst (List.filter_sublist m)

theorem pmDelete_length_lt {m : PageMap} {k : String}
    (h : pmContains m k = true) : (pmDelete m k).length < m.length := by
  rw [pmContains_iff_mem_keys] at h
  obtain ⟨p, hp, he⟩ := List.mem_map.mp h
  have : ¬ ((fun q : String × PStatus => !(q.1 == k)) p = true) := by simp [he]
  calc (pmDelete m k).length < m.length := by
        apply List.length_filter_lt_length_iff_exists.mpr
        exact ⟨p, hp, this⟩

theorem pmContains_pmDelete_self (m : PageMap) (k : String) :
    pmContains (pmDelete m k) k = false := by
  rw [pmContains_false_iff]
  intro hmem
  obtain ⟨p, hp, he⟩ := List.mem_map.mp hmem
  exact (mem_pmDelete.mp hp).2 he

theorem pmContains_pmDelete_le {m : PageMap} {k u : String}
    (h : pmContains (pmDelete m k) u = true) : pmContains m u = true := by
  rw [pmContains_iff_mem_keys] at h ⊢
  obtain ⟨p, hp, he⟩ := List.mem_map.mp h
  exact List.mem_map.mpr ⟨p, (mem_pmDelete.mp hp).1, he⟩

theorem pmAssign_keys_of_contains {m : PageMap} {k : String} (v : PStatus)
    (h : pmContains m k = true) :
    (pmAssign m k v).map Prod.fst = m.map Prod.fst := by
  unfold pmAssign
  rw [if_pos h, List.map_map]
  apply List.map_congr_left
  intro p _
  by_cases hpk : p.1 = k
  · simp [Function.comp, hpk]
  · simp [Function.comp, beq_iff_eq, hpk]

theorem pmAssign_length_of_contains {m : PageMap} {k : String} (v : PStatus)
    (h : pmContains m k = true) : (pmAssign m k v).length = m.length := by
  unfold pmAssign
  rw [if_pos h, List.length_map]

theorem pmAssign_of_not_contains {m : PageMap} {k : String} (v : PStatus)
    (h : pmContains m k = false) : pmAssign m k v = m ++ [(k, v)] := by
  unfold pmAssign
  rw [if_neg (by simp [h])]

theorem mem_pmAssign {m : PageMap} {k : String} {v : PStatus}
    {p : String × PStatus} (h : p ∈ pmAssign m k v) :
    p = (k, v) ∨ (p ∈ m ∧ ¬ p.1 = k) := by
  unfold pmAssign at h
  by_cases hc : pmContains m k = true
  · rw [if_pos hc] at h
    obtain ⟨q, hq, he⟩ := List.mem_map.mp h
    by_cases hqk : q.1 = k
    · left
      rw [← he]
      simp [beq_iff_eq, hqk]
    · right
      rw [← he]
      simp only [beq_iff_eq, if_neg hqk]
      exact ⟨hq, hqk⟩
  · rw [if_neg hc] at h
    rcases List.mem_append.mp h with h | h
    · right
      refine ⟨h, ?_⟩
      intro hk
      exact hc (pmContains_iff_mem_keys.mpr (List.mem_map.mpr ⟨p, h, hk⟩))
    · left
      simpa using h

/-! ## Effect of the parser on the frontier -/

theorem handleA_effect (cfg : ParserCfg) (st : ParserSt) (tag : String)
    (attrs : List Attr) :
    (handleA cfg st tag attrs).baseUrl = st.baseUrl
    ∧ ((handleA cfg st tag attrs).pageMap = st.pageMap
       ∨ ∃ u, (handleA cfg st tag attrs).pageMap = st.pageMap ++ [(u, PStatus.empty)]
           ∧ pmContains st.pageMap u = false
           ∧ cfg.redirects.count u = 0
           ∧ urlsplitNetloc u = cfg.server) := by
  by_cases htag : strUpper tag = "A"
  case neg =>
    unfold handleA
    rw [if_neg htag]
    exact ⟨rfl, Or.inl rfl⟩
  case pos =>
    cases hscan : scanAttrs st.baseUrl attrs "" with
    | none =>
      unfold handleA
      rw [if_pos htag]
      simp only [hscan]
      exact ⟨trivial, Or.inl trivial⟩
    | some url =>
      by_cases h1 : urlsplitNetloc url ≠ cfg.server
      · unfold handleA
        rw [if_pos htag]
        simp only [hscan]
        rw [if_pos h1]
        exact ⟨rfl, Or.inl rfl⟩
      · by_cases h2 : hasBlockedExtension cfg.blockExtensions url = true
            ∨ 0 < cfg.redirects.count url
        · unfold handleA
          rw [if_pos htag]
          simp only [hscan]
          rw [if_neg h1, if_pos h2]
          exact ⟨rfl, Or.inl rfl⟩
        · by_cases h3 : cfg.robot.isSome = true ∧ ¬ robotAllows cfg.robot url = true
          · unfold handleA
            rw [if_pos htag]
            simp only [hscan]
            rw [if_neg h1, if_neg h2, if_pos h3]
            exact ⟨rfl, Or.inl rfl⟩
          · by_cases h4 : pmContains st.pageMap url = true
            · unfold handleA
              rw [if_pos htag]
              simp only [hscan]
              rw [if_neg h1, if_neg h2, if_neg h3, if_pos h4]
              exact ⟨rfl, Or.inl rfl⟩
            · unfold handleA
              rw [if_pos htag]
              simp only [hscan]
              rw [if_neg h1, if_neg h2, if_neg h3, if_neg h4]
              have hcount : cfg.redirects.count url = 0 := by
                have : ¬ 0 < cfg.redirects.count url := fun hc => h2 (Or.inr hc)
                omega
              exact ⟨rfl, Or.inr ⟨url, rfl, by simpa using h4, hcount, not_not.mp h1⟩⟩

theorem handleBase_ok_pageMap {st : ParserSt} {tag : String}
    {attrs : List Attr} {st1 : ParserSt}
    (h : handleBase st tag attrs = Except.ok st1) : st1.pageMap = st.pageMap := by
  unfold handleBase at h
  by_cases hb : strUpper tag = "BASE"
  · rw [if_pos hb] at h
    cases attrs with
    | nil => simp at h
    | cons a rest =>
      simp only at h
      cases h
      split <;> rfl
  · rw [if_neg hb] at h
    cases h
    rfl

theorem handle_starttag_ok_effect {cfg : ParserCfg} {st : ParserSt}
    {tag : String} {attrs : List Attr} {st' : ParserSt}
    (h : handle_starttag cfg st tag attrs = Except.ok st') :
    st'.pageMap = st.pageMap
    ∨ ∃ u, st'.pageMap = st.pageMap ++ [(u, PStatus.empty)]
        ∧ pmContains st.pageMap u = false
        ∧ cfg.redirects.count u = 0
        ∧ urlsplitNetloc u = cfg.server
        ∧ st.pageMap.length < cfg.maxUrls := by
  unfold handle_starttag at h
  by_cases hlen : st.pageMap.length ≥ cfg.maxUrls
  · rw [if_pos hlen] at h
    cases h
    exact Or.inl rfl
  · rw [if_neg hlen] at h
    cases hb : handleBase st tag attrs with
    | error e =>
      rw [hb] at h
      exact Except.noConfusion h
    | ok st1 =>
      simp only [hb] at h
      cases h
      have hbase := handleBase_ok_pageMap hb
      obtain ⟨_, hfx⟩ := handleA_effect cfg st1 tag attrs
      rw [hbase] at hfx
      rcases hfx with h' | ⟨u, hu, hc, hr, hn⟩
      · exact Or.inl h'
      · exact Or.inr ⟨u, hu, hc, hr, hn, lt_of_not_ge hlen⟩

theorem feedTags_ok_effect (cfg : ParserCfg) :
    ∀ (tags : List Tag) (st st' : ParserSt),
      feedTags cfg st tags = Except.ok st' →
      ∃ extra, st'.pageMap = st.pageMap ++ extra
        ∧ extra.length ≤ tags.length
        ∧ (∀ p ∈ extra, p.2 = PStatus.empty ∧ cfg.redirects.count p.1 = 0
             ∧ urlsplitNetloc p.1 = cfg.server)
        ∧ ((st.pageMap.map Prod.fst).Nodup → ((st.pageMap ++ extra).map Prod.fst).Nodup) := by
  intro tags
  induction tags with
  | nil =>
    intro st st' h
    cases h
    exact ⟨[], by simp, by simp, by simp, by simp⟩
  | cons t ts ih =>
    intro st st' h
    simp only [feedTags] at h
    cases hh : handle_starttag cfg st t.1 t.2 with
    | error e =>
      rw [hh] at h
      exact Except.noConfusion h
    | ok st1 =>
      simp only [hh] at h
      obtain ⟨extra, he, hl, hp, hnd⟩ := ih st1 st' h
      rcases handle_starttag_ok_effect hh with h1 | ⟨u, hu, hc, hr, hn, _⟩
      · refine ⟨extra, by rw [he, h1], le_trans hl (Nat.le_succ _), hp, ?_⟩
        rw [← h1]
        exact hnd
      · refine ⟨(u, PStatus.empty) :: extra, ?_, ?_, ?_, ?_⟩
        · rw [he, hu, List.append_assoc]
          rfl
        · simpa using Nat.succ_le_succ hl
        · intro p hpmem
          rcases List.mem_cons.mp hpmem with h' | h'
          · subst h'
            exact ⟨rfl, hr, hn⟩
          · exact hp p h'
        · intro hnodup
          have hu' : u ∉ st.pageMap.map Prod.fst := pmContains_false_iff.mp hc
          have h2 : ((st.pageMap ++ [(u, PStatus.empty)]).map Prod.fst).Nodup := by
            rw [List.map_append]
            simp [List.nodup_append, hnodup, hu']
          have h3 := hnd (hu ▸ h2)
          rw [hu, List.append_assoc] at h3
          simpa using h3

theorem handle_starttag_length {cfg : ParserCfg} {st : ParserSt}
    {tag : String} {attrs : List Attr} {st' : ParserSt}
    (h : handle_starttag cfg st tag attrs = Except.ok st')
    (hb : st.pageMap.length ≤ cfg.maxUrls) :
    st'.pageMap.length ≤ cfg.maxUrls := by
  rcases handle_starttag_ok_effect h with h1 | ⟨u, hu, _, _, _, hlt⟩
  · rw [h1]; exact hb
  · rw [hu]
    simp only [List.length_append, List.length_singleton]
    omega

theorem feedTags_length (cfg : ParserCfg) :
    ∀ (tags : List Tag) (st st' : ParserSt),
      feedTags cfg st tags = Except.ok st' →
      st.pageMap.length ≤ cfg.maxUrls →
      st'.pageMap.length ≤ cfg.maxUrls := by
  intro tags
  induction tags with
  | nil => intro st st' h hb; cases h; exact hb
  | cons t ts ih =>
    intro st st' h hb
    simp only [feedTags] at h
    cases hh : handle_starttag cfg st t.1 t.2 with
    | error e =>
      rw [hh] at h
      exact Except.noConfusion h
    | ok st1 => exact ih st1 st' (by simpa [hh] using h) (handle_starttag_length hh hb)

/-! ## Crawl-state invariant and its preservation -/

theorem pmDelete_eq_self {m : PageMap} {k : String}
    (h : k ∉ m.map Prod.fst) : pmDelete m k = m := by
  unfold pmDelete
  apply List.filter_eq_self.mpr
  intro p hp
  simp only [Bool.not_eq_true', beq_eq_false_iff_ne, ne_eq]
  intro he
  exact h (List.mem_map.mpr ⟨p, hp, he⟩)

theorem pmContains_of_mem {m : PageMap} {p : String × PStatus} (hp : p ∈ m) :
    pmContains m p.1 = true :=
  pmContains_iff_mem_keys.mpr (List.mem_map.mpr ⟨p, hp, rfl⟩)

theorem crawlInv_init (fetch : String → FetchResult) (startUrl : String) :
    CrawlInv fetch (urlsplitNetloc startUrl) (initState startUrl) := by
  refine ⟨by simp [initState], by simp [initState], by simp [initState],
    ?_, by simp [initState], ?_, by simp [initState]⟩
  · intro u hu
    simp only [initState, List.map_cons, List.map_nil] at hu
    rcases List.mem_singleton.mp hu with h
    rw [h]
  · intro p hp hne
    simp only [initState] at hp
    rcases List.mem_singleton.mp hp with h
    rw [h] at hne
    exact absurd rfl hne

theorem crawlStep_next_inv {fetch : String → FetchResult} {server : String}
    {maxUrls : Nat} {blockExt : List String} {robot : Option (String → Bool)}
    {s s' : CrawlState}
    (hinv : CrawlInv fetch server s)
    (h : crawlStep fetch server maxUrls blockExt robot s = StepResult.next s') :
    CrawlInv fetch server s' ∧ (∀ u ∈ s.redirects, u ∈ s'.redirects) := by
  unfold crawlStep at h
  cases hget : getUrlToProcess s.pageMap with
  | none =>
    simp only [hget] at h
    exact StepResult.noConfusion h
  | some url =>
    simp only [hget] at h
    have hmem := getUrlToProcess_mem hget
    have hcont : pmContains s.pageMap url = true := pmContains_of_mem hmem
    have hkey : url ∈ s.pageMap.map Prod.fst :=
      List.mem_map.mpr ⟨(url, PStatus.empty), hmem, rfl⟩
    have hurlnet : urlsplitNetloc url = server := hinv.netloc_keys url hkey
    have hurlred : url ∉ s.redirects := by
      intro hu
      have := hinv.disj url hu
      rw [this] at hcont
      cases hcont
    cases hf : fetch url with
    | failure =>
      simp only [hf] at h
      cases h
      constructor
      case right => intro u hu; exact hu
      case left =>
        refine ⟨hinv.nodup.sublist (pmDelete_keys_sublist _ _), ?_,
          hinv.rnodup, ?_, hinv.netloc_reds, ?_, hinv.red_red⟩
        · intro u hu
          by_cases hc : pmContains (pmDelete s.pageMap url) u = true
          · have := pmContains_pmDelete_le hc
            rw [hinv.disj u hu] at this
            cases this
          · simpa using hc
        · intro u hu
          obtain ⟨p, hp, he⟩ := List.mem_map.mp hu
          exact hinv.netloc_keys u
            (List.mem_map.mpr ⟨p, (mem_pmDelete.mp hp).1, he⟩)
        · intro p hp hne
          exact hinv.vis_succ p (mem_pmDelete.mp hp).1 hne
    | redirect target =>
      simp only [hf] at h
      -- the two admission outcomes share most obligations
      have hdel_nodup : ((pmDelete s.pageMap url).map Prod.fst).Nodup :=
        hinv.nodup.sublist (pmDelete_keys_sublist _ _)
      have hdel_net : ∀ u ∈ (pmDelete s.pageMap url).map Prod.fst,
          urlsplitNetloc u = server := by
        intro u hu
        obtain ⟨p, hp, he⟩ := List.mem_map.mp hu
        exact hinv.netloc_keys u
          (List.mem_map.mpr ⟨p, (mem_pmDelete.mp hp).1, he⟩)
      have hdel_vis : ∀ p ∈ pmDelete s.pageMap url, p.2 ≠ PStatus.empty →
          ∃ d c, fetch p.1 = FetchResult.success d c := fun p hp hne =>
        hinv.vis_succ p (mem_pmDelete.mp hp).1 hne
      have hrn : (s.redirects ++ [url]).Nodup := by
        simp [List.nodup_append, hinv.rnodup, hurlred]
      have hrnet : ∀ u ∈ s.redirects ++ [url], urlsplitNetloc u = server := by
        intro u hu
        rcases List.mem_append.mp hu with hu | hu
        · exact hinv.netloc_reds u hu
        · rw [List.mem_singleton.mp hu]
          exact hurlnet
      have hrred : ∀ u ∈ s.redirects ++ [url], ∃ t, fetch u = FetchResult.redirect t := by
        intro u hu
        rcases List.mem_append.mp hu with hu | hu
        · exact hinv.red_red u hu
        · rw [List.mem_singleton.mp hu]
          exact ⟨target, hf⟩
      have hrdisj : ∀ u ∈ s.redirects ++ [url],
          pmContains (pmDelete s.pageMap url) u = false := by
        intro u hu
        rcases List.mem_append.mp hu with hu | hu
        · by_cases hc : pmContains (pmDelete s.pageMap url) u = true
          · have := pmContains_pmDelete_le hc
            rw [hinv.disj u hu] at this
            cases this
          · simpa using hc
        · rw [List.mem_singleton.mp hu]
          exact pmContains_pmDelete_self _ _
      split at h
      case isTrue hcond =>
        cases h
        obtain ⟨hnet, hnc, hnr, _⟩ := hcond
        have hnkey : (urldefrag target).1 ∉ (pmDelete s.pageMap url).map Prod.fst := by
          intro hmem'
          exact hnc (pmContains_iff_mem_keys.mpr hmem')
        constructor
        case right => intro u hu; exact List.mem_append.mpr (Or.inl hu)
        case left =>
          refine ⟨?_, ?_, hrn, ?_, hrnet, ?_, hrred⟩
          · rw [List.map_append]
            simp [List.nodup_append, hdel_nodup, hnkey]
          · intro u hu
            rw [pmContains_false_iff, List.map_append]
            intro hmem'
            rcases List.mem_append.mp hmem' with hm | hm
            · exact pmContains_false_iff.mp (hrdisj u hu) hm
            · simp only [List.map_cons, List.map_nil] at hm
              rw [List.mem_singleton.mp hm] at hu
              exact hnr hu
          · intro u hu
            rw [List.map_append] at hu
            rcases List.mem_append.mp hu with hm | hm
            · exact hdel_net u hm
            · simp only [List.map_cons, List.map_nil] at hm
              rw [List.mem_singleton.mp hm]
              exact hnet
          · intro p hp hne
            rcases List.mem_append.mp hp with hm | hm
            · exact hdel_vis p hm hne
            · rw [List.mem_singleton.mp hm] at hne
              exact absurd rfl hne
      case isFalse hcond =>
        cases h
        constructor
        case right => intro u hu; exact List.mem_append.mpr (Or.inl hu)
        case left =>
          exact ⟨hdel_nodup, hrdisj, hrn, hdel_net, hrnet, hdel_vis, hrred⟩
    | success date content =>
      simp only [hf] at h
      have hkeys1 : (pmAssign s.pageMap url (PStatus.visited date)).map Prod.fst
          = s.pageMap.map Prod.fst := pmAssign_keys_of_contains _ hcont
      have hvis1 : ∀ p ∈ pmAssign s.pageMap url (PStatus.visited date),
          p.2 ≠ PStatus.empty → ∃ d c, fetch p.1 = FetchResult.success d c := by
        intro p hp hne
        rcases mem_pmAssign hp with h' | ⟨hpm, _⟩
        · rw [h']
          exact ⟨date, content, hf⟩
        · exact hinv.vis_succ p hpm hne
      cases content with
      | decodeError =>
        simp only at h
        cases h
        constructor
        case right => intro u hu; exact hu
        case left =>
          refine ⟨hkeys1 ▸ hinv.nodup, ?_, hinv.rnodup, hkeys1 ▸ hinv.netloc_keys,
            hinv.netloc_reds, hvis1, hinv.red_red⟩
          intro u hu
          rw [pmContains_false_iff, hkeys1]
          exact pmContains_false_iff.mp (hinv.disj u hu)
      | tags tags =>
        simp only at h
        cases hfeed : feedTags ⟨urlsplitNetloc url, maxUrls, blockExt, robot,
            s.redirects⟩ ⟨url, pmAssign s.pageMap url (PStatus.visited date)⟩ tags with
        | error e =>
          rw [hfeed] at h
          exact StepResult.noConfusion h
        | ok pst =>
          rw [hfeed] at h
          cases h
          obtain ⟨extra, hpm, _, hprops, hnd⟩ :=
            feedTags_ok_effect _ tags _ pst hfeed
          simp only at hpm hprops hnd
          constructor
          case right => intro u hu; exact hu
          case left =>
            refine ⟨?_, ?_, hinv.rnodup, ?_, hinv.netloc_reds, ?_, hinv.red_red⟩
            · rw [hpm]
              exact hnd (hkeys1 ▸ hinv.nodup)
            · intro u hu
              rw [pmContains_false_iff, hpm, List.map_append, hkeys1]
              intro hmem'
              rcases List.mem_append.mp hmem' with hm | hm
              · exact pmContains_false_iff.mp (hinv.disj u hu) hm
              · obtain ⟨p, hp, he⟩ := List.mem_map.mp hm
                have := (hprops p hp).2.1
                rw [he, List.count_eq_zero] at this
                exact this hu
            · intro u hu
              rw [hpm, List.map_append, hkeys1] at hu
              rcases List.mem_append.mp hu with hm | hm
              · exact hinv.netloc_keys u hm
              · obtain ⟨p, hp, he⟩ := List.mem_map.mp hm
                rw [← he, (hprops p hp).2.2]
                exact hurlnet
            · intro p hp hne
              rw [hpm] at hp
              rcases List.mem_append.mp hp with hm | hm
              · exact hvis1 p hm hne
              · rw [(hprops p hm).1] at hne
                exact absurd rfl hne

/-! ## Loop-level lemmas -/

theorem crawlStep_length {fetch : String → FetchResult} {server : String}
    {maxUrls : Nat} {blockExt : List String} {robot : Option (String → Bool)}
    {s s' : CrawlState}
    (h : crawlStep fetch server maxUrls blockExt robot s = StepResult.next s')
    (hb : s.pageMap.length ≤ maxUrls) : s'.pageMap.length ≤ maxUrls := by
  unfold crawlStep at h
  cases hget : getUrlToProcess s.pageMap with
  | none =>
    simp only [hget] at h
    exact StepResult.noConfusion h
  | some url =>
    simp only [hget] at h
    have hmem := getUrlToProcess_mem hget
    have hcont : pmContains s.pageMap url = true := pmContains_of_mem hmem
    cases hf : fetch url with
    | failure =>
      simp only [hf] at h
      cases h
      exact le_trans (pmDelete_length_le _ _) hb
    | redirect target =>
      simp only [hf] at h
      split at h
      · cases h
        have hlt := pmDelete_length_lt hcont
        simp only [List.length_append, List.length_singleton]
        omega
      · cases h
        exact le_trans (pmDelete_length_le _ _) hb
    | success date content =>
      simp only [hf] at h
      have hb1 : (pmAssign s.pageMap url (PStatus.visited date)).length ≤ maxUrls := by
        rw [pmAssign_length_of_contains _ hcont]
        exact hb
      cases content with
      | decodeError =>
        simp only at h
        cases h
        exact hb1
      | tags tags =>
        simp only at h
        cases hfeed : feedTags ⟨urlsplitNetloc url, maxUrls, blockExt, robot,
            s.redirects⟩ ⟨url, pmAssign s.pageMap url (PStatus.visited date)⟩ tags with
        | error e =>
          rw [hfeed] at h
          exact StepResult.noConfusion h
        | ok pst =>
          rw [hfeed] at h
          cases h
          exact feedTags_length _ tags _ pst hfeed hb1

theorem crawlStep_done_eq {fetch : String → FetchResult} {server : String}
    {maxUrls : Nat} {blockExt : List String} {robot : Option (String → Bool)}
    {s : CrawlState} {pm : PageMap}
    (h : crawlStep fetch server maxUrls blockExt robot s = StepResult.done pm) :
    pm = s.pageMap ∧ getUrlToProcess s.pageMap = none := by
  unfold crawlStep at h
  cases hget : getUrlToProcess s.pageMap with
  | none =>
    simp only [hget] at h
    cases h
    exact ⟨rfl, rfl⟩
  | some url =>
    simp only [hget] at h
    cases hf : fetch url with
    | failure =>
      simp only [hf] at h
      exact StepResult.noConfusion h
    | redirect target =>
      simp only [hf] at h
      split at h <;> exact StepResult.noConfusion h
    | success date content =>
      simp only [hf] at h
      cases content with
      | decodeError =>
        simp only at h
        exact StepResult.noConfusion h
      | tags tags =>
        simp only at h
        cases hfeed : feedTags ⟨urlsplitNetloc url, maxUrls, blockExt, robot,
            s.redirects⟩ ⟨url, pmAssign s.pageMap url (PStatus.visited date)⟩ tags with
        | error e =>
          rw [hfeed] at h
          exact StepResult.noConfusion h
        | ok pst =>
          rw [hfeed] at h
          exact StepResult.noConfusion h

theorem crawlLoop_ok_length {fetch : String → FetchResult} {server : String}
    {maxUrls : Nat} {blockExt : List String} {robot : Option (String → Bool)} :
    ∀ (n : Nat) (s : CrawlState), s.pageMap.length ≤ maxUrls →
      ∀ pm, crawlLoop fetch server maxUrls blockExt robot n s
          = some (Except.ok pm) → pm.length ≤ maxUrls := by
  intro n
  induction n with
  | zero =>
    intro s hs pm h
    exact Option.noConfusion h
  | succ n ih =>
    intro s hs pm h
    simp only [crawlLoop] at h
    cases hstep : crawlStep fetch server maxUrls blockExt robot s with
    | done pm' =>
      rw [hstep] at h
      cases h
      rw [(crawlStep_done_eq hstep).1]
      exact hs
    | crash =>
      rw [hstep] at h
      simp at h
    | next s' =>
      rw [hstep] at h
      exact ih s' (crawlStep_length hstep hs) pm h

theorem crawlIter_frozen {fetch : String → FetchResult} {server : String}
    {maxUrls : Nat} {blockExt : List String} {robot : Option (String → Bool)}
    {s : CrawlState}
    (h : ∀ s', crawlStep fetch server maxUrls blockExt robot s ≠ StepResult.next s') :
    ∀ n, crawlIter fetch server maxUrls blockExt robot n s = s := by
  intro n
  cases n with
  | zero => rfl
  | succ n =>
    cases hstep : crawlStep fetch server maxUrls blockExt robot s with
    | next s' => exact absurd hstep (h s')
    | done pm => simp only [crawlIter, hstep]
    | crash => simp only [crawlIter, hstep]

theorem crawlIter_add (fetch : String → FetchResult) (server : String)
    (maxUrls : Nat) (blockExt : List String) (robot : Option (String → Bool)) :
    ∀ (a b : Nat) (s : CrawlState),
      crawlIter fetch server maxUrls blockExt robot (a + b) s
        = crawlIter fetch server maxUrls blockExt robot b
            (crawlIter fetch server maxUrls blockExt robot a s) := by
  intro a
  induction a with
  | zero =>
    intro b s
    rw [Nat.zero_add]
    rfl
  | succ a ih =>
    intro b s
    rw [Nat.succ_add]
    simp only [crawlIter]
    cases hstep : crawlStep fetch server maxUrls blockExt robot s with
    | next s' => exact ih b s'
    | done pm =>
      rw [crawlIter_frozen (fun s' h' => by rw [hstep] at h'; exact StepResult.noConfusion h') b]
    | crash =>
      rw [crawlIter_frozen (fun s' h' => by rw [hstep] at h'; exact StepResult.noConfusion h') b]

theorem crawlIter_inv_mono (fetch : String → FetchResult) (server : String)
    (maxUrls : Nat) (blockExt : List String) (robot : Option (String → Bool)) :
    ∀ (n : Nat) (s : CrawlState), CrawlInv fetch server s →
      CrawlInv fetch server (crawlIter fetch server maxUrls blockExt robot n s)
      ∧ ∀ u ∈ s.redirects,
          u ∈ (crawlIter fetch server maxUrls blockExt robot n s).redirects := by
  intro n
  induction n with
  | zero => exact fun s hinv => ⟨hinv, fun u hu => hu⟩
  | succ n ih =>
    intro s hinv
    simp only [crawlIter]
    cases hstep : crawlStep fetch server maxUrls blockExt robot s with
    | next s' =>
      obtain ⟨hinv', hmono⟩ := crawlStep_next_inv hinv hstep
      obtain ⟨hinv'', hmono'⟩ := ih s' hinv'
      exact ⟨hinv'', fun u hu => hmono' u (hmono u hu)⟩
    | done pm => exact ⟨hinv, fun u hu => hu⟩
    | crash => exact ⟨hinv, fun u hu => hu⟩

/-! ## Claims C1, C2, C3, C8 -/

/-- C1: with a configured maximum URL count in the documented range
(at least 1), the frontier mapping returned by `parsePages` — and hence
the set of url entries written to the sitemap — never has more than
`maxUrls` entries; the parser's budget guard bounds every admission, and
the redirect-target admission (which replaces the deleted redirected
entry) cannot push the frontier over the ceiling either. -/
theorem c1_budget_enforced (fetch : String → FetchResult)
    (robot : Option (String → Bool)) (maxUrls : Nat)
    (blockExtensions : List String) (startUrl : String) (fuel : Nat)
    (pm : PageMap) (hmax : 1 ≤ maxUrls)
    (hrun : parsePagesRun fetch robot maxUrls blockExtensions startUrl fuel
        = some (Except.ok pm)) :
    pm.length ≤ maxUrls := by
  have hinit : (initState startUrl).pageMap.length ≤ maxUrls := by
    simpa [initState] using hmax
  exact crawlLoop_ok_length fuel (initState startUrl) hinit pm hrun

theorem c1_witness : ([] : PageMap).length ≤ 1 :=
  c1_budget_enforced (fun _ => FetchResult.failure) none 1 [] "http://e.com/" 3 []
    (by decide) (by decide)

/-- C2: once a URL has been appended to the redirects list it stays there
for the remainder of the crawl and is never again a key of the frontier
mapping, neither via the parser's link admission nor via the
redirect-target admission. -/
theorem c2_redirect_permanence (fetch : String → FetchResult)
    (robot : Option (String → Bool)) (maxUrls : Nat)
    (blockExtensions : List String) (startUrl : String)
    (n k : Nat) (u : String)
    (h : u ∈ (parsePagesIter fetch robot maxUrls blockExtensions startUrl n).redirects) :
    u ∈ (parsePagesIter fetch robot maxUrls blockExtensions startUrl (n + k)).redirects
    ∧ pmContains
        (parsePagesIter fetch robot maxUrls blockExtensions startUrl (n + k)).pageMap u
      = false := by
  obtain ⟨invn, _⟩ := crawlIter_inv_mono fetch (urlsplitNetloc startUrl) maxUrls
    blockExtensions robot n (initState startUrl) (crawlInv_init fetch startUrl)
  have hadd : parsePagesIter fetch robot maxUrls blockExtensions startUrl (n + k)
      = crawlIter fetch (urlsplitNetloc startUrl) maxUrls blockExtensions robot k
          (parsePagesIter fetch robot maxUrls blockExtensions startUrl n) := by
    unfold parsePagesIter
    exact crawlIter_add fetch (urlsplitNetloc startUrl) maxUrls blockExtensions robot
      n k (initState startUrl)
  obtain ⟨invk, monok⟩ := crawlIter_inv_mono fetch (urlsplitNetloc startUrl) maxUrls
    blockExtensions robot k
    (parsePagesIter fetch robot maxUrls blockExtensions startUrl n) invn
  rw [hadd]
  exact ⟨monok u h, invk.disj u (monok u h)⟩

theorem c2_witness :
    "http://e.com/" ∈ (parsePagesIter (fun u =>
        if u = "http://e.com/" then FetchResult.redirect "http://e.com/b"
        else if u = "http://e.com/b" then FetchResult.success 3 (PageContent.tags [])
        else FetchResult.failure) none 10 [] "http://e.com/" (1 + 2)).redirects
    ∧ pmContains (parsePagesIter (fun u =>
        if u = "http://e.com/" then FetchResult.redirect "http://e.com/b"
        else if u = "http://e.com/b" then FetchResult.success 3 (PageContent.tags [])
        else FetchResult.failure) none 10 [] "http://e.com/" (1 + 2)).pageMap
        "http://e.com/"
      = false :=
  c2_redirect_permanence _ none 10 [] "http://e.com/" 1 2 "http://e.com/" (by decide)

/-- C3: every URL that is ever a frontier key or a redirects member during
a crawl started from `startUrl` has exactly the network location of
`startUrl` (the start URL itself trivially included); candidates with any
other netloc are never admitted. -/
theorem c3_same_origin (fetch : String → FetchResult)
    (robot : Option (String → Bool)) (maxUrls : Nat)
    (blockExtensions : List String) (startUrl : String) (n : Nat) (u : String)
    (h : pmContains
          (parsePagesIter fetch robot maxUrls blockExtensions startUrl n).pageMap u = true
        ∨ u ∈ (parsePagesIter fetch robot maxUrls blockExtensions startUrl n).redirects) :
    urlsplitNetloc u = urlsplitNetloc startUrl := by
  obtain ⟨invn, _⟩ := crawlIter_inv_mono fetch (urlsplitNetloc startUrl) maxUrls
    blockExtensions robot n (initState startUrl) (crawlInv_init fetch startUrl)
  rcases h with h | h
  · exact invn.netloc_keys u (pmContains_iff_mem_keys.mp h)
  · exact invn.netloc_reds u h

theorem c3_witness :
    urlsplitNetloc "http://e.com/b" = urlsplitNetloc "http://e.com/" :=
  c3_same_origin (fun u =>
      if u = "http://e.com/" then FetchResult.redirect "http://e.com/b"
      else if u = "http://e.com/b" then FetchResult.success 3 (PageContent.tags [])
      else FetchResult.failure) none 10 [] "http://e.com/" 2 "http://e.com/b"
    (by decide)

/-- C8: when the fetched page's content fails UTF-8 decoding, the crawl
loop iteration still records the fetched URL as visited with its resolved
timestamp, admits zero candidate links, leaves the rest of the frontier
and the redirects list unchanged, and continues (the step yields a normal
successor state). -/
theorem c8_decode_failure_nonfatal (fetch : String → FetchResult) (server : String)
    (maxUrls : Nat) (blockExtensions : List String) (robot : Option (String → Bool))
    (s : CrawlState) (url : String) (date : Nat)
    (hsel : getUrlToProcess s.pageMap = some url)
    (hfetch : fetch url = FetchResult.success date PageContent.decodeError) :
    crawlStep fetch server maxUrls blockExtensions robot s
      = StepResult.next ⟨pmAssign s.pageMap url (PStatus.visited date), s.redirects⟩ := by
  unfold crawlStep
  simp only [hsel, hfetch]

theorem c8_witness :
    crawlStep (fun _ => FetchResult.success 5 PageContent.decodeError) "e.com" 10 []
        none ⟨[("http://e.com/", PStatus.empty)], ["http://e.com/r"]⟩
      = StepResult.next ⟨[("http://e.com/", PStatus.visited 5)], ["http://e.com/r"]⟩ := by
  rw [c8_decode_failure_nonfatal (fun _ => FetchResult.success 5 PageContent.decodeError)
      "e.com" 10 [] none ⟨[("http://e.com/", PStatus.empty)], ["http://e.com/r"]⟩
      "http://e.com/" 5 (by decide) (by decide)]
  decide

/-! ## Termination of the crawl loop (claim C4)

The finite universe of pages is a list of `(url, fetch outcome)` pairs;
`fetchOf` is the induced fetch function (URLs outside the universe fail).
The loop terminates because the potential `phi` strictly decreases at
every `next` step: a failure consumes an unvisited frontier entry, and a
redirect or success permanently burns one universe URL (into the redirect
list or the visited set) while creating at most `maxTags` new unvisited
entries. -/

theorem resultTags_le_maxTags {univ : List (String × FetchResult)}
    {p : String × FetchResult} (hp : p ∈ univ) :
    resultTags p.2 ≤ maxTags univ := by
  induction univ with
  | nil => cases hp
  | cons q rest ih =>
    rcases List.mem_cons.mp hp with h | h
    · rw [h]
      exact le_max_left _ _
    · exact le_trans (ih h) (le_max_right _ _)

theorem fetchOf_mem {univ : List (String × FetchResult)} {u : String}
    (h : fetchOf univ u ≠ FetchResult.failure) :
    u ∈ univ.map Prod.fst := by
  unfold fetchOf at h
  cases hf : univ.find? (fun q => q.1 == u) with
  | none =>
    rw [hf] at h
    exact absurd rfl h
  | some q =>
    have h1 := List.find?_some hf
    have h2 := List.mem_of_find?_eq_some hf
    have h3 : q.1 = u := by simpa using h1
    exact h3 ▸ List.mem_map.mpr ⟨q, h2, rfl⟩

theorem fetchOf_resultTags_le (univ : List (String × FetchResult)) (u : String) :
    resultTags (fetchOf univ u) ≤ maxTags univ := by
  unfold fetchOf
  cases hf : univ.find? (fun q => q.1 == u) with
  | none =>
    simp only [hf]
    exact Nat.zero_le _
  | some q =>
    simp only [hf]
    exact resultTags_le_maxTags (List.mem_of_find?_eq_some hf)

theorem burned_le {univ : List (String × FetchResult)} {server : String}
    {s : CrawlState} (hinv : CrawlInv (fetchOf univ) server s) :
    burned s ≤ univSize univ := by
  have hAnodup : ((s.pageMap.filter (fun p => !(p.2 == PStatus.empty))).map Prod.fst).Nodup :=
    hinv.nodup.sublist (List.Sublist.map Prod.fst (List.filter_sublist _))
  have hABnodup : ((s.pageMap.filter (fun p => !(p.2 == PStatus.empty))).map Prod.fst
      ++ s.redirects).Nodup := by
    apply List.Nodup.append hAnodup hinv.rnodup
    intro u hu1 hu2
    obtain ⟨p, hp, he⟩ := List.mem_map.mp hu1
    have hkey : u ∈ s.pageMap.map Prod.fst :=
      List.mem_map.mpr ⟨p, (List.mem_filter.mp hp).1, he⟩
    exact pmContains_false_iff.mp (hinv.disj u hu2) hkey
  have hsub : (s.pageMap.filter (fun p => !(p.2 == PStatus.empty))).map Prod.fst
      ++ s.redirects ⊆ (univ.map Prod.fst).dedup := by
    intro u hu
    rw [List.mem_dedup]
    rcases List.mem_append.mp hu with hu | hu
    · obtain ⟨p, hp, he⟩ := List.mem_map.mp hu
      obtain ⟨hpm, hne⟩ := List.mem_filter.mp hp
      have hne' : p.2 ≠ PStatus.empty := by simpa using hne
      obtain ⟨d, c, hsucc⟩ := hinv.vis_succ p hpm hne'
      refine he ▸ fetchOf_mem ?_
      rw [hsucc]
      exact fun hcontra => FetchResult.noConfusion hcontra
    · obtain ⟨t, hred⟩ := hinv.red_red u hu
      apply fetchOf_mem
      rw [hred]
      exact fun hcontra => FetchResult.noConfusion hcontra
  have hle := (hABnodup.subperm hsub).length_le
  simpa [burned, visitedCount, univSize, List.length_append] using hle

theorem pmDelete_cons_eq (q : String × PStatus) (rest : PageMap) (url : String)
    (h : q.1 = url) : pmDelete (q :: rest) url = pmDelete rest url := by
  simp [pmDelete, List.filter_cons, h]

theorem pmDelete_cons_ne (q : String × PStatus) (rest : PageMap) (url : String)
    (h : ¬ q.1 = url) : pmDelete (q :: rest) url = q :: pmDelete rest url := by
  simp [pmDelete, List.filter_cons, h]

theorem counts_pmDelete {m : PageMap} {url : String}
    (hn : (m.map Prod.fst).Nodup) (hm : (url, PStatus.empty) ∈ m) :
    (pmDelete m url).filter (fun p => !(p.2 == PStatus.empty))
        = m.filter (fun p => !(p.2 == PStatus.empty))
    ∧ ((pmDelete m url).filter (fun p => p.2 == PStatus.empty)).length + 1
        = (m.filter (fun p => p.2 == PStatus.empty)).length := by
  induction m with
  | nil => cases hm
  | cons q rest ih =>
    rw [List.map_cons, List.nodup_cons] at hn
    obtain ⟨hq, hrest⟩ := hn
    rcases List.mem_cons.mp hm with h | h
    · have hq1 : q.1 = url := by rw [← h]
      have hq2 : q.2 = PStatus.empty := by rw [← h]
      have hnokey : url ∉ rest.map Prod.fst := hq1 ▸ hq
      have hdel : pmDelete rest url = rest := pmDelete_eq_self hnokey
      rw [pmDelete_cons_eq q rest url hq1, hdel]
      constructor
      · rw [List.filter_cons]
        simp [hq2]
      · rw [List.filter_cons]
        simp [hq2]
    · have hkey : url ∈ rest.map Prod.fst :=
        List.mem_map.mpr ⟨(url, PStatus.empty), h, rfl⟩
      have hq1 : ¬ q.1 = url := fun he => hq (he ▸ hkey)
      rw [pmDelete_cons_ne q rest url hq1]
      obtain ⟨ih1, ih2⟩ := ih hrest h
      constructor
      · rw [List.filter_cons, List.filter_cons]
        by_cases hq2 : (!(q.2 == PStatus.empty)) = true
        · rw [if_pos hq2, if_pos hq2, ih1]
        · rw [if_neg hq2, if_neg hq2]
          exact ih1
      · rw [List.filter_cons, List.filter_cons]
        by_cases hq2 : (q.2 == PStatus.empty) = true
        · rw [if_pos hq2, if_pos hq2]
          simp only [List.length_cons]
          omega
        · rw [if_neg hq2, if_neg hq2]
          exact ih2

theorem counts_assign_map {url : String} (d : Nat) :
    ∀ {m : PageMap}, (m.map Prod.fst).Nodup → (url, PStatus.empty) ∈ m →
    ((m.map (fun p => if p.1 == url then (url, PStatus.visited d) else p)).filter
        (fun p => !(p.2 == PStatus.empty))).length
      = (m.filter (fun p => !(p.2 == PStatus.empty))).length + 1
    ∧ ((m.map (fun p => if p.1 == url then (url, PStatus.visited d) else p)).filter
        (fun p => p.2 == PStatus.empty)).length + 1
      = (m.filter (fun p => p.2 == PStatus.empty)).length := by
  intro m hn hm
  induction m with
  | nil => cases hm
  | cons q rest ih =>
    rw [List.map_cons, List.nodup_cons] at hn
    obtain ⟨hq, hrest⟩ := hn
    rcases List.mem_cons.mp hm with h | h
    · have hq1 : q.1 = url := by rw [← h]
      have hq2 : q.2 = PStatus.empty := by rw [← h]
      have hnokey : url ∉ rest.map Prod.fst := hq1 ▸ hq
      have hfq : (if q.1 == url then (url, PStatus.visited d) else q)
          = (url, PStatus.visited d) := by simp [hq1]
      have hmapid : rest.map
          (fun p => if p.1 == url then (url, PStatus.visited d) else p) = rest := by
        have h1 : rest.map (fun p => if p.1 == url then (url, PStatus.visited d) else p)
            = rest.map id := by
          apply List.map_congr_left
          intro p hp
          have hne : ¬ p.1 = url := fun he =>
            hnokey (he ▸ List.mem_map.mpr ⟨p, hp, rfl⟩)
          simp [hne]
        simpa using h1
      rw [List.map_cons, hfq, hmapid]
      constructor
      · rw [List.filter_cons, List.filter_cons]
        simp [hq2]
      · rw [List.filter_cons, List.filter_cons]
        simp [hq2]
    · have hkey : url ∈ rest.map Prod.fst :=
        List.mem_map.mpr ⟨(url, PStatus.empty), h, rfl⟩
      have hq1 : ¬ q.1 = url := fun he => hq (he ▸ hkey)
      have hfq : (if q.1 == url then (url, PStatus.visited d) else q) = q := by
        simp [hq1]
      rw [List.map_cons, hfq]
      obtain ⟨ih1, ih2⟩ := ih hrest h
      constructor
      · rw [List.filter_cons, List.filter_cons]
        by_cases hq2 : (!(q.2 == PStatus.empty)) = true
        · rw [if_pos hq2, if_pos hq2]
          simp only [List.length_cons]
          omega
        · rw [if_neg hq2, if_neg hq2]
          exact ih1
      · rw [List.filter_cons, List.filter_cons]
        by_cases hq2 : (q.2 == PStatus.empty) = true
        · rw [if_pos hq2, if_pos hq2]
          simp only [List.length_cons]
          omega
        · rw [if_neg hq2, if_neg hq2]
          exact ih2

theorem counts_pmAssign {m : PageMap} {url : String} (d : Nat)
    (hn : (m.map Prod.fst).Nodup) (hm : (url, PStatus.empty) ∈ m) :
    ((pmAssign m url (PStatus.visited d)).filter
        (fun p => !(p.2 == PStatus.empty))).length
      = (m.filter (fun p => !(p.2 == PStatus.empty))).length + 1
    ∧ ((pmAssign m url (PStatus.visited d)).filter
        (fun p => p.2 == PStatus.empty)).length + 1
      = (m.filter (fun p => p.2 == PStatus.empty)).length := by
  have hc : pmContains m url = true := pmContains_of_mem hm
  unfold pmAssign
  rw [if_pos hc]
  exact counts_assign_map d hn hm

theorem crawlStep_next_measure {fetch : String → FetchResult} {server : String}
    {maxUrls : Nat} {blockExt : List String} {robot : Option (String → Bool)}
    {s s' : CrawlState}
    (hinv : CrawlInv fetch server s)
    (h : crawlStep fetch server maxUrls blockExt robot s = StepResult.next s') :
    (burned s' = burned s ∧ unvisitedCount s' < unvisitedCount s)
    ∨ (burned s' = burned s + 1 ∧ unvisitedCount s' ≤ unvisitedCount s)
    ∨ (∃ url date c, fetch url = FetchResult.success date c
        ∧ burned s' = burned s + 1
        ∧ unvisitedCount s' + 1 ≤ unvisitedCount s + contentTags c) := by
  unfold crawlStep at h
  cases hget : getUrlToProcess s.pageMap with
  | none =>
    simp only [hget] at h
    exact StepResult.noConfusion h
  | some url =>
    simp only [hget] at h
    have hmem := getUrlToProcess_mem hget
    obtain ⟨hcdel, hcdel2⟩ := counts_pmDelete hinv.nodup hmem
    cases hf : fetch url with
    | failure =>
      simp only [hf] at h
      cases h
      left
      constructor
      · simp only [burned, visitedCount]
        rw [hcdel]
      · simp only [unvisitedCount]
        omega
    | redirect target =>
      simp only [hf] at h
      split at h
      · cases h
        right
        left
        constructor
        · simp only [burned, visitedCount, List.filter_append, List.length_append,
            List.length_cons, List.length_nil]
          rw [hcdel]
          have hzero : (List.filter (fun p => !(p.2 == PStatus.empty))
              [((urldefrag target).1, PStatus.empty)]).length = 0 := by rfl
          rw [hzero]
          omega
        · simp only [unvisitedCount, List.filter_append, List.length_append]
          have hone : (List.filter (fun p => p.2 == PStatus.empty)
              [((urldefrag target).1, PStatus.empty)]).length = 1 := by rfl
          rw [hone]
          omega
      · cases h
        right
        left
        constructor
        · simp only [burned, visitedCount, List.length_append, List.length_cons,
            List.length_nil]
          rw [hcdel]
          omega
        · simp only [unvisitedCount]
          omega
    | success date content =>
      simp only [hf] at h
      obtain ⟨hca1, hca2⟩ := counts_pmAssign date hinv.nodup hmem
      cases content with
      | decodeError =>
        simp only at h
        cases h
        right
        right
        refine ⟨url, date, PageContent.decodeError, hf, ?_, ?_⟩
        · simp only [burned, visitedCount]
          omega
        · simp only [unvisitedCount, contentTags]
          omega
      | tags tags =>
        simp only at h
        cases hfeed : feedTags ⟨urlsplitNetloc url, maxUrls, blockExt, robot,
            s.redirects⟩ ⟨url, pmAssign s.pageMap url (PStatus.visited date)⟩ tags with
        | error e =>
          rw [hfeed] at h
          exact StepResult.noConfusion h
        | ok pst =>
          rw [hfeed] at h
          cases h
          obtain ⟨extra, hpm, hlen, hprops, _⟩ := feedTags_ok_effect _ tags _ pst hfeed
          simp only at hpm hlen hprops
          right
          right
          refine ⟨url, date, PageContent.tags tags, hf, ?_, ?_⟩
          · simp only [burned, visitedCount]
            rw [hpm, List.filter_append, List.length_append]
            have hex : extra.filter (fun p => !(p.2 == PStatus.empty)) = [] :=
              List.filter_eq_nil_iff.mpr (fun p hp => by simp [(hprops p hp).1])
            rw [hex]
            simp only [List.length_nil]
            omega
          · simp only [unvisitedCount, contentTags]
            rw [hpm, List.filter_append, List.length_append]
            have hex : extra.filter (fun p => p.2 == PStatus.empty) = extra :=
              List.filter_eq_self.mpr (fun p hp => by simp [(hprops p hp).1])
            rw [hex]
            omega

theorem crawlLoop_isSome {univ : List (String × FetchResult)} {server : String}
    {maxUrls : Nat} {blockExt : List String} {robot : Option (String → Bool)} :
    ∀ (k : Nat) (s : CrawlState), CrawlInv (fetchOf univ) server s →
      phi univ s < k →
      (crawlLoop (fetchOf univ) server maxUrls blockExt robot k s).isSome := by
  intro k
  induction k with
  | zero =>
    intro s _ hphi
    omega
  | succ k ih =>
    intro s hinv hphi
    cases hstep : crawlStep (fetchOf univ) server maxUrls blockExt robot s with
    | done pm => simp [crawlLoop, hstep]
    | crash => simp [crawlLoop, hstep]
    | next s' =>
      have hinv' := (crawlStep_next_inv hinv hstep).1
      have hble : burned s' ≤ univSize univ := burned_le hinv'
      have hdec : phi univ s' < phi univ s := by
        rcases crawlStep_next_measure hinv hstep with ⟨hb, hu⟩ | ⟨hb, hu⟩
          | ⟨url, dd, c, hfu, hb, hu⟩
        · unfold phi
          rw [hb]
          generalize (univSize univ - burned s) * (maxTags univ + 1) = A
          omega
        · unfold phi
          rw [hb] at hble ⊢
          have hx : univSize univ - burned s = (univSize univ - (burned s + 1)) + 1 := by
            omega
          rw [hx, Nat.succ_mul]
          generalize (univSize univ - (burned s + 1)) * (maxTags univ + 1) = A
          omega
        · have hc : contentTags c ≤ maxTags univ := by
            have hr := fetchOf_resultTags_le univ url
            rw [hfu] at hr
            simpa using hr
          unfold phi
          rw [hb] at hble ⊢
          have hx : univSize univ - burned s = (univSize univ - (burned s + 1)) + 1 := by
            omega
          rw [hx, Nat.succ_mul]
          generalize (univSize univ - (burned s + 1)) * (maxTags univ + 1) = A
          omega
      simp only [crawlLoop, hstep]
      exact ih s' hinv' (by omega)

theorem crawlLoop_ok_visited {fetch : String → FetchResult} {server : String}
    {maxUrls : Nat} {blockExt : List String} {robot : Option (String → Bool)} :
    ∀ (n : Nat) (s : CrawlState) (pm : PageMap),
      crawlLoop fetch server maxUrls blockExt robot n s = some (Except.ok pm) →
      ∀ p ∈ pm, p.2 ≠ PStatus.empty := by
  intro n
  induction n with
  | zero =>
    intro s pm h
    exact Option.noConfusion h
  | succ n ih =>
    intro s pm h
    simp only [crawlLoop] at h
    cases hstep : crawlStep fetch server maxUrls blockExt robot s with
    | done pm' =>
      rw [hstep] at h
      cases h
      obtain ⟨heq, hnone⟩ := crawlStep_done_eq hstep
      rw [heq]
      exact getUrlToProcess_none hnone
    | crash =>
      rw [hstep] at h
      simp at h
    | next s' =>
      rw [hstep] at h
      exact ih s' pm h

/-- C4: for every finite universe of pages (each fetch outcome and each
page's tag list being finite and a function of the URL), the `parsePages`
loop terminates — with enough fuel the run yields a definite outcome, the
returned frontier or the aborting exception of claim C10 — and whenever a
frontier mapping is returned, none of its entries is in the unvisited
state: every remaining key is mapped to a visited timestamp. -/
theorem c4_crawl_terminates_all_visited (univ : List (String × FetchResult))
    (robot : Option (String → Bool)) (maxUrls : Nat)
    (blockExtensions : List String) (startUrl : String) :
    ∃ (n : Nat) (r : Except Unit PageMap),
      parsePagesRun (fetchOf univ) robot maxUrls blockExtensions startUrl n = some r
      ∧ ∀ pm, r = Except.ok pm → ∀ p ∈ pm, p.2 ≠ PStatus.empty := by
  have hinv := crawlInv_init (fetchOf univ) startUrl
  have hterm := @crawlLoop_isSome univ (urlsplitNetloc startUrl) maxUrls
      blockExtensions robot (phi univ (initState startUrl) + 1)
      (initState startUrl) hinv (Nat.lt_succ_self _)
  unfold parsePagesRun
  cases hres : crawlLoop (fetchOf univ) (urlsplitNetloc startUrl) maxUrls
      blockExtensions robot (phi univ (initState startUrl) + 1)
      (initState startUrl) with
  | none =>
    rw [hres] at hterm
    exact absurd hterm (by simp)
  | some r =>
    refine ⟨phi univ (initState startUrl) + 1, r, hres, ?_⟩
    intro pm hr
    rw [hr] at hres
    exact crawlLoop_ok_visited _ _ pm hres

/-! ## Properties of the attribute scan (claims C5, C7) -/

theorem scanAttrs_of_nofollow (base : String) :
    ∀ (attrs : List Attr) (u : String),
      (∃ a ∈ attrs, strUpper a.1 = "REL" ∧ strContains (strUpper a.2) "NOFOLLOW" = true) →
      scanAttrs base attrs u = none := by
  intro attrs
  induction attrs with
  | nil => rintro u ⟨a, ha, _⟩; exact absurd ha (List.not_mem_nil a)
  | cons a rest ih =>
    rintro u ⟨b, hb, hbp⟩
    simp only [scanAttrs]
    by_cases hc : strUpper a.1 = "REL" ∧ strContains (strUpper a.2) "NOFOLLOW" = true
    · rw [if_pos hc]
    · rw [if_neg hc]
      have hbr : b ∈ rest := by
        rcases List.mem_cons.mp hb with h | h
        · exact absurd (h ▸ hbp) hc
        · exact h
      split
      · exact ih _ ⟨b, hbr, hbp⟩
      · exact ih _ ⟨b, hbr, hbp⟩

theorem scanAttrs_acc (base : String) :
    ∀ (attrs : List Attr) (u : String),
      (∀ a ∈ attrs, ¬ (strUpper a.1 = "REL" ∧ strContains (strUpper a.2) "NOFOLLOW" = true)) →
      scanAttrs base attrs u =
        match (attrs.filter eligibleHref).getLast? with
        | some a => if joinUrls base a.2 = "" then none else some (joinUrls base a.2)
        | none => if u = "" then none else some u := by
  intro attrs
  induction attrs with
  | nil => intro u _; simp [scanAttrs]
  | cons a rest ih =>
    intro u hnf
    have hna := hnf a (List.mem_cons_self a rest)
    simp only [scanAttrs]
    rw [if_neg hna]
    by_cases he : strUpper a.1 = "HREF" ∧ ¬ strContains (strUpper a.2) "MAILTO:" = true
    · rw [if_pos he]
      have helig : eligibleHref a = true := by
        simp only [eligibleHref, decide_eq_true_eq]; exact he
      rw [List.filter_cons_of_pos helig]
      rw [ih _ (fun b hb => hnf b (List.mem_cons_of_mem a hb))]
      cases hfr : rest.filter eligibleHref with
      | nil => simp
      | cons c cs =>
        simp only [List.getLast?_cons_cons]
        cases hgl : (c :: cs).getLast? with
        | none => simp at hgl
        | some d => rfl
    · rw [if_neg he]
      have helig : ¬ eligibleHref a = true := by
        simp only [eligibleHref, decide_eq_true_eq]; exact he
      rw [List.filter_cons_of_neg helig]
      exact ih _ (fun b hb => hnf b (List.mem_cons_of_mem a hb))

/-- C5 (counterexample): with two plain hrefs on one anchor the candidate
is the second one, not the first as the claim states; and an href whose
value contains `mailto:` away from the start yields no candidate at all,
though the claim says it is still eligible. -/
theorem c5_counterexample :
    scanAttrs "http://e.com/" [("href", "a.html"), ("href", "b.html")] ""
        ≠ some (joinUrls "http://e.com/" "a.html")
      ∧ scanAttrs "http://e.com/" [("href", "x?redirect=mailto:joe")] "" = none := by
  decide

/-- C5 (amended): for an anchor tag with no `rel` nofollow attribute, the
candidate URL is the LAST `href` attribute whose value does not CONTAIN
`mailto:` (case-insensitively), resolved against the current base URL with
its fragment stripped (`joinUrls`); earlier eligible hrefs are overwritten,
and if no eligible href exists (or the resolved URL is empty) there is no
candidate. -/
theorem c5_candidate_is_last_nonmailto_href (base : String) (attrs : List Attr)
    (hnf : ∀ a ∈ attrs, ¬ (strUpper a.1 = "REL" ∧ strContains (strUpper a.2) "NOFOLLOW" = true)) :
    scanAttrs base attrs "" =
      match (attrs.filter eligibleHref).getLast? with
      | some a => if joinUrls base a.2 = "" then none else some (joinUrls base a.2)
      | none => none := by
  rw [scanAttrs_acc base attrs "" hnf]
  cases (attrs.filter eligibleHref).getLast? <;> simp

theorem c5_witness :
    scanAttrs "http://e.com/" [("href", "a.html"), ("href", "b.html")] ""
      = some "http://e.com/b.html" := by
  rw [c5_candidate_is_last_nonmailto_href "http://e.com/" _ (by decide)]
  decide

/-! ## Base-tag handling (claim C6) -/

/-- C6 (counterexample): after a page sets a first base URL, a second
`base` tag changes the effective base again (it is joined onto the
current base), so the effective base is not determined by the first
`base` tag. -/
theorem c6_counterexample :
    (feedTags ⟨"e.com", 10, [], none, []⟩
        ⟨"http://e.com/", [("http://e.com/", PStatus.visited 0)]⟩
        [("base", [("href", "http://e.com/one/")]), ("base", [("href", "two/")])]).map
        ParserSt.baseUrl
      = Except.ok "http://e.com/one/two/"
    ∧ "http://e.com/one/two/" ≠ joinUrls "http://e.com/" "http://e.com/one/" := by
  decide

/-- C6 (amended): below the URL budget, EVERY `base` tag whose first
attribute is an `href` updates the effective base URL by resolving that
href against the current base; later `base` tags are not ignored, so the
last one wins for subsequent links. -/
theorem c6_every_base_href_rebases (cfg : ParserCfg) (st : ParserSt)
    (tag name href : String) (rest : List Attr)
    (hlen : st.pageMap.length < cfg.maxUrls)
    (htag : strUpper tag = "BASE") (hname : strUpper name = "HREF") :
    handle_starttag cfg st tag ((name, href) :: rest)
      = Except.ok { st with baseUrl := joinUrls st.baseUrl href } := by
  have hA : ¬ strUpper tag = "A" := by rw [htag]; decide
  have h1 : handleBase st tag ((name, href) :: rest)
      = Except.ok { st with baseUrl := joinUrls st.baseUrl href } := by
    unfold handleBase
    rw [if_pos htag]
    simp [hname]
  have h2 : ∀ st2 : ParserSt, handleA cfg st2 tag ((name, href) :: rest) = st2 := by
    intro st2
    unfold handleA
    rw [if_neg hA]
  unfold handle_starttag
  rw [if_neg (not_le.mpr hlen)]
  simp only [h1, h2]

theorem c6_witness :
    handle_starttag ⟨"e.com", 10, [], none, []⟩
        ⟨"http://e.com/one/", [("http://e.com/", PStatus.visited 0)]⟩
        "base" [("href", "two/")]
      = Except.ok ⟨"http://e.com/one/two/", [("http://e.com/", PStatus.visited 0)]⟩ := by
  rw [c6_every_base_href_rebases _ _ _ _ _ _ (by decide) (by decide) (by decide)]
  decide

/-! ## Nofollow (claim C7) -/

/-- C7: an anchor tag with any `rel` attribute whose value contains the
token `nofollow` (case-insensitively) produces no candidate URL and leaves
the parser state (base URL and frontier) completely unchanged, wherever
the `rel` sits and whatever hrefs the tag carries. -/
theorem c7_nofollow_rejected (cfg : ParserCfg) (st : ParserSt) (tag : String)
    (attrs : List Attr) (htag : strUpper tag = "A")
    (h : ∃ a ∈ attrs, strUpper a.1 = "REL" ∧ strContains (strUpper a.2) "NOFOLLOW" = true) :
    handle_starttag cfg st tag attrs = Except.ok st
    ∧ scanAttrs st.baseUrl attrs "" = none := by
  have hscan := scanAttrs_of_nofollow st.baseUrl attrs "" h
  refine ⟨?_, hscan⟩
  have hB : ¬ strUpper tag = "BASE" := by rw [htag]; decide
  have h1 : handleBase st tag attrs = Except.ok st := by
    unfold handleBase; rw [if_neg hB]
  have h2 : handleA cfg st tag attrs = st := by
    unfold handleA
    rw [if_pos htag, hscan]
  unfold handle_starttag
  split
  · rfl
  · simp only [h1, h2]

theorem c7_witness :
    handle_starttag ⟨"e.com", 10, [], none, []⟩
        ⟨"http://e.com/", [("http://e.com/", PStatus.visited 0)]⟩
        "a" [("href", "x.html"), ("rel", "nofollow")]
      = Except.ok ⟨"http://e.com/", [("http://e.com/", PStatus.visited 0)]⟩
    ∧ scanAttrs "http://e.com/" [("href", "x.html"), ("rel", "nofollow")] "" = none :=
  c7_nofollow_rejected ⟨"e.com", 10, [], none, []⟩
    ⟨"http://e.com/", [("http://e.com/", PStatus.visited 0)]⟩
    "a" [("href", "x.html"), ("rel", "nofollow")] (by decide) (by decide)

/-! ## The max-urls guard (claim C9) -/

/-- C9: the command-line guard fails to reject a max-urls value of 0: the
code only rejects negative values and values above 50000, so 0 — outside
the documented range [1, 50000] — is accepted and crawling proceeds. -/
theorem c9_max_urls_zero_not_rejected :
    maxUrlsRejected 0 = false ∧ (0 : Int) < 1 := by decide

/-! ## The empty-base-tag crash (claim C10) -/

/-- C10: a fetched page containing a `base` tag with an empty attribute
list makes `handle_starttag` evaluate `attrs[0][0]` and raise an
`IndexError`; the exception is not the `UnicodeError` caught around
`parser.feed`, so it propagates out of `parsePages` and aborts the entire
crawl instead of being a non-fatal per-page failure. -/
theorem c10_empty_base_attrs_aborts_crawl :
    parsePagesRun
        (fun u => if u = "http://e.com/" then
          FetchResult.success 7 (PageContent.tags [("base", [])])
        else FetchResult.failure)
        none 10 [] "http://e.com/" 5
      = some (Except.error ())
    ∧ handle_starttag ⟨"e.com", 10, [], none, []⟩
        ⟨"http://e.com/", [("http://e.com/", PStatus.visited 7)]⟩ "base" []
      = Except.error () := by
  decide

end SitemapGen
